import Mathlib

/-!
Verification of the relay-rank program (src/src/main.rs): a filter-score-rank
pipeline over relay records read from standard input.

Modelling conventions:
* Rust `u64` fields are modelled as `Nat`; where the source performs `u64`
  arithmetic that can overflow, the model applies `% 2 ^ 64` explicitly
  (release-mode wrapping semantics).
* Rust `i64` values are modelled as `Int`; the cast `u64 as i64` and `i64`
  subtraction are modelled with `Int.bmod _ (2 ^ 64)`, the two's-complement
  reinterpretation (balanced residue in `[-2 ^ 63, 2 ^ 63)`).
* Rust `f32` arithmetic in the scorer is modelled over `ℝ` (idealized real
  semantics: `powf` becomes `Real.rpow`, `log2` becomes `Real.logb 2`).
* The sort on line 79 (`Vec::sort_by`, a stable sort) is modelled with
  `List.mergeSort`, which is stable; the comparator
  `|a, b| b.1.score.partial_cmp(&a.1.score).unwrap()` orders entries by
  descending score. The possibility that `partial_cmp` returns `None`
  (a not-a-number score) and the `unwrap` panics is modelled separately
  (`sortByE` below) with an explicit option-valued comparison, since the
  idealized real model has no not-a-number value.
-/

namespace RelayRank

/-- Model of the parts of nostr_types `RelayInformationDocument` consulted by
main.rs: `pubkey` (line 55), `payments_url` and `fees` (line 64). Only the
presence of `fees` is consulted, so its payload is modelled as `Unit`. -/
structure RelayInformationDocument where
  pubkey : Option String
  payments_url : Option String
  fees : Option Unit
deriving DecidableEq, Repr

/-- Model of nostr_types `RelayUrl` as the two observations main.rs makes of
it: `text` models `as_str()` (line 69) and `path` models
`as_url_crate_url().path()` (line 44). In the library `path` is derived by URL
parsing from the text; here both are carried explicitly. -/
structure RelayUrl where
  text : String
  path : String
deriving DecidableEq, Repr

/-- The `Relay` record of main.rs lines 6-18, field for field. -/
structure Relay where
  url : RelayUrl
  success_count : Nat
  failure_count : Nat
  last_connected_at : Option Nat
  last_general_eose_at : Option Nat
  rank : Nat
  hidden : Bool
  usage_bits : Nat
  nip11 : Option RelayInformationDocument
  last_attempt_nip11 : Option Nat
deriving DecidableEq, Repr

/-- A decoded public key, identified by its 64-character hex encoding. -/
structure PublicKey where
  hex : String
deriving DecidableEq, Repr

/-- Is `c` a hexadecimal digit (either case)? -/
def isHexChar (c : Char) : Bool :=
  c.isDigit || (('a' ≤ c && c ≤ 'f') || ('A' ≤ c && c ≤ 'F'))

/-- Model of nostr_types `PublicKey::try_from_hex_string(s, true)` (called on
main.rs line 56; the library is a dependency, not part of src/): the string is
hex-decoded and must yield exactly 32 bytes, i.e. be exactly 64 hex
characters; anything shorter (a key prefix) or longer, or containing a
non-hex character, fails. The additional elliptic-curve point-validity check
performed by the library when `verify = true` is abstracted away; no claim
depends on it, only on hex well-formedness and length. -/
def tryFromHexString (s : String) : Option PublicKey :=
  if s.length = 64 && s.data.all isHexChar then some ⟨s⟩ else none

/-- Does `needle` occur at the head of `hay`? (Helper for `strContains`.) -/
def listHasPre : List Char → List Char → Bool
  | [], _ => true
  | _ :: _, [] => false
  | a :: n, b :: h => a == b && listHasPre n h

/-- Does `needle` occur in `hay` as a contiguous run? (Helper for
`strContains`.) -/
def listHasSub (needle : List Char) : List Char → Bool
  | [] => needle.isEmpty
  | b :: t => listHasPre needle (b :: t) || listHasSub needle t

/-- Model of Rust `str::contains` with a literal pattern (main.rs line 69):
substring containment. -/
def strContains (s pat : String) : Bool :=
  listHasSub pat.data s.data

/-- The eligibility filter: the body of the input loop of main.rs lines
39-76, which either skips the record (`continue`, modelled as `none`) or
yields the decoded operator public key to be pushed alongside the record.
The checks, in source order: `success_count == 0` (line 39), URL path not
`"/"` (line 44), missing nip11 (line 49), missing or undecodable pubkey
(lines 55-61), `payments_url` or `fees` present (line 64), URL text
containing `"mikedilger"` (line 69). -/
def filter (relay : Relay) : Option PublicKey :=
  if relay.success_count = 0 then none
  else if relay.url.path ≠ "/" then none
  else match relay.nip11 with
    | none => none
    | some nip11 =>
      match nip11.pubkey with
      | none => none
      | some pkp =>
        match tryFromHexString pkp with
        | none => none
        | some pk =>
          if nip11.payments_url.isSome || nip11.fees.isSome then none
          else if strContains relay.url.text "mikedilger" then none
          else some pk

/-- The `Scoring` record of main.rs lines 20-27. `f32` fields are modelled
as `ℝ`, `i64` as `ℤ`, `u64` as `Nat`. -/
structure Scoring where
  score : ℝ
  ago : ℤ
  attempts : Nat
  success : Nat
  rate : ℝ

/-- Two's-complement reinterpretation of a `u64` value as `i64` (the cast
`time as i64` on main.rs line 94): the balanced residue mod `2 ^ 64`. -/
def u64AsI64 (t : Nat) : ℤ :=
  Int.bmod (t : ℤ) (2 ^ 64)

/-- Wrapping (release-mode) `i64` subtraction, used for
`Unixtime::now().unwrap().0 - last_connected as i64` on main.rs line 94. -/
def i64Sub (a b : ℤ) : ℤ :=
  Int.bmod (a - b) (2 ^ 64)

/-- The scoring function `rank` of main.rs lines 88-112, with the single read
of the current clock (`Unixtime::now().unwrap().0`, an `i64`) passed in as
the parameter `now`. `u64` addition on line 96 wraps mod `2 ^ 64`; the `f32`
arithmetic of lines 98-103 is modelled over `ℝ`: `powf` is `Real.rpow`,
`log2` is `Real.logb 2`, and the `log_attempts * log_attempts` product is
kept as written in the source. -/
noncomputable def rank (now : ℤ) (relay : Relay) : Scoring :=
  let last_connected_at : Nat :=
    match relay.last_connected_at with
    | none => 0
    | some time => time
  let ago : ℤ := i64Sub now (u64AsI64 last_connected_at)
  let attempts : Nat := (relay.success_count + relay.failure_count) % 2 ^ 64
  let success : Nat := relay.success_count
  let rate : ℝ := (relay.success_count : ℝ) / (attempts : ℝ)
  let log_attempts : ℝ := Real.logb 2 (attempts : ℝ)
  let age_penalty_divisor : ℝ := 1 + (ago : ℝ) / 86400
  let score : ℝ := rate ^ (1.414 : ℝ) * log_attempts * log_attempts / age_penalty_divisor
  { score := score, ago := ago, attempts := attempts, success := success, rate := rate }

/-- One accumulated element of the `ranked` vector of main.rs line 31:
the relay, its scoring, and its decoded operator key. -/
abbrev Entry := Relay × Scoring × PublicKey

/-- The comparator of main.rs line 79, `|a, b| b.1.score.partial_cmp(&a.1.score)`,
as the boolean "ordered-before-or-equal" relation of a stable sort:
`a` may stay before `b` exactly when the comparator does not answer
`Greater`, i.e. when `b`'s score is at most `a`'s (descending by score).
In the idealized real model every comparison succeeds; the `None`/panic case
of `partial_cmp(..).unwrap()` is modelled separately by `sortByE`. -/
noncomputable def scoreLE (a b : Entry) : Bool :=
  decide (b.2.1.score ≤ a.2.1.score)

/-- The input loop of main.rs lines 33-77: each line is decoded into a
`Relay` (failure aborts the whole run: lines 35-36, modelled as
`Except.error` carrying the offending line), the eligibility `filter` is
applied, and each survivor is scored and appended in arrival order.
Decoding (`serde_json::from_str`) belongs to external crates, so it is
passed in as the parameter `parse`. -/
noncomputable def processLines (parse : String → Option Relay) (now : ℤ) :
    List String → Except String (List Entry)
  | [] => Except.ok []
  | line :: rest =>
    match parse line with
    | none => Except.error line
    | some relay =>
      match filter relay with
      | none => processLines parse now rest
      | some pk =>
        match processLines parse now rest with
        | Except.error e => Except.error e
        | Except.ok tail => Except.ok ((relay, rank now relay, pk) :: tail)

/-- The whole run of `main` (main.rs lines 29-86): accumulate the eligible
scored entries, sort them by descending score (line 79; `Vec::sort_by` is a
stable sort, modelled by the stable `List.mergeSort`), and emit the first 20
(lines 81-83). The emitted value is the list of printed entries. -/
noncomputable def runMain (parse : String → Option Relay) (now : ℤ)
    (lines : List String) : Except String (List Entry) :=
  match processLines parse now lines with
  | Except.error e => Except.error e
  | Except.ok ranked => Except.ok ((ranked.mergeSort scoreLE).take 20)

/-- The ordering-relevant abstraction of an `f32` score for main.rs line 79:
a score is either not-a-number (on which `partial_cmp` has no answer) or an
ordered value, modelled by a real number. -/
inductive FVal where
  | nan : FVal
  | val : ℝ → FVal

/-- Model of `f32::partial_cmp`: defined whenever neither operand is
not-a-number, undefined (`none`) otherwise. -/
noncomputable def optCmpF : FVal → FVal → Option Ordering
  | FVal.val x, FVal.val y => some (compare x y)
  | _, _ => none

/-- The score comparator of main.rs line 79,
`|a, b| b.1.score.partial_cmp(&a.1.score)`, restricted to the scores it
inspects: arguments flipped so that ascending comparator order is descending
score order. -/
noncomputable def cmpScore (a b : FVal) : Option Ordering :=
  optCmpF b a

/-- One insertion step of a stable comparison sort whose comparator may have
no answer; `none` models the `unwrap()` panic of main.rs line 79. The element
moves past every strictly-greater entry and lands before the first
non-greater one. -/
noncomputable def insertByE (x : FVal) : List FVal → Option (List FVal)
  | [] => some [x]
  | y :: ys =>
    match cmpScore x y with
    | none => none
    | some Ordering.gt =>
      match insertByE x ys with
      | none => none
      | some r => some (y :: r)
    | some _ => some (x :: y :: ys)

/-- Model of `Vec::sort_by` with the panicking comparator of main.rs line 79:
a stable comparison sort that aborts (`none`) as soon as the comparator is
invoked on a non-comparable pair. Any correct comparison sort invokes the
comparator on every element once the list has at least two entries, so the
failure condition proved below is independent of the particular
sorting-network shape; a stable insertion sort is used here. -/
noncomputable def sortByE : List FVal → Option (List FVal)
  | [] => some []
  | x :: xs =>
    match sortByE xs with
    | none => none
    | some s => insertByE x s

/-! Concrete records used by witnesses and counterexamples. -/

/-- A minimal well-formed relay record: one success, no failures, no
metadata, no recorded connection time. -/
def baseRelay : Relay :=
  { url := { text := "wss://relay.example/", path := "/" }
    success_count := 1
    failure_count := 0
    last_connected_at := none
    last_general_eose_at := none
    rank := 0
    hidden := false
    usage_bits := 0
    nip11 := none
    last_attempt_nip11 := none }

/-- A full-length (64 hex character) public key encoding. -/
def fullHexKey : String :=
  "0123456789abcdef0123456789abcdef0123456789abcdef0123456789abcdef"

/-- A metadata document with a full-length operator key and no
payment/fee indication. -/
def goodDoc : RelayInformationDocument :=
  { pubkey := some fullHexKey, payments_url := none, fees := none }

/-- A metadata document whose operator key is a 16-character hex value:
a valid shorter prefix encoding of a key, not a full-length key. -/
def cex5PreDoc : RelayInformationDocument :=
  { pubkey := some "0123456789abcdef", payments_url := none, fees := none }

/-- A relay that passes every filter predicate except that its operator
identity is only a key prefix. -/
def cex5Pre : Relay :=
  { baseRelay with success_count := 5, failure_count := 1, nip11 := some cex5PreDoc }

/-- The same relay with a full-length operator key. -/
def cex5Full : Relay :=
  { baseRelay with success_count := 5, failure_count := 1, nip11 := some goodDoc }

/-- A single-attempt relay last connected at time 0. -/
def cex7A : Relay :=
  { baseRelay with last_connected_at := some 0 }

/-- A single-attempt relay last connected at time 86400. -/
def cex7B : Relay :=
  { baseRelay with last_connected_at := some 86400 }

/-- A two-attempt relay last connected at time 0. -/
def wit7A : Relay :=
  { baseRelay with failure_count := 1, last_connected_at := some 0 }

/-- A two-attempt relay last connected at time 3600. -/
def wit7B : Relay :=
  { baseRelay with failure_count := 1, last_connected_at := some 3600 }

/-- A relay whose success and failure counters sum to exactly `2 ^ 64`,
overflowing the `u64` addition of main.rs line 96. -/
def wit10 : Relay :=
  { baseRelay with success_count := 2 ^ 63, failure_count := 2 ^ 63 }

/-- A decoder that fails on every line (models a stream of undecodable
input). -/
def pfail : String → Option Relay :=
  fun _ => none

/-- A concrete scoring record with score 0. -/
def witScoring : Scoring :=
  { score := 0, ago := 0, attempts := 1, success := 1, rate := 1 }

/-- A concrete ranked entry. -/
def witEntryA : Entry :=
  (baseRelay, witScoring, ⟨fullHexKey⟩)

/-- A second ranked entry with the same score as `witEntryA` but a
distinguishable relay. -/
def witEntryB : Entry :=
  ({ baseRelay with success_count := 2 }, witScoring, ⟨fullHexKey⟩)

/-! Helper lemmas. -/

/-- A value already inside the signed 64-bit range is fixed by the
two's-complement balanced residue. -/
theorem bmod_two_pow_eq_self {x : ℤ} (h1 : -(2 ^ 63) ≤ x) (h2 : x < 2 ^ 63) :
    Int.bmod x (2 ^ 64) = x := by
  rw [Int.bmod_def]
  split <;> omega

/-! Claim theorems. -/

/-- C2: a parsed relay record survives the eligibility filter if and only if
its success count is positive, its URL path is exactly "/", its metadata is
present with a present operator identity that decodes as a public key, it
has no payments URL and no fees, and its URL text does not contain the
reserved exclusion substring "mikedilger"; the conjunction form makes each
predicate alone sufficient for rejection. -/
theorem claim2_filter_iff (relay : Relay) :
    (filter relay).isSome = true ↔
      0 < relay.success_count ∧
      relay.url.path = "/" ∧
      ∃ n11, relay.nip11 = some n11 ∧
        (∃ pkp, n11.pubkey = some pkp ∧ (tryFromHexString pkp).isSome = true) ∧
        n11.payments_url = none ∧
        n11.fees = none ∧
        strContains relay.url.text "mikedilger" = false := by
  cases hn : relay.nip11 with
  | none =>
    simp only [filter, hn]
    split_ifs <;> simp_all
  | some n11 =>
    cases hpk : n11.pubkey with
    | none =>
      simp only [filter, hn, hpk]
      split_ifs <;> simp_all
    | some pkp =>
      cases hdec : tryFromHexString pkp with
      | none =>
        simp only [filter, hn, hpk, hdec]
        split_ifs <;> simp_all
      | some pk =>
        simp only [filter, hn, hpk, hdec]
        split_ifs with hsc hpath hpay hsub <;>
          simp_all [Nat.pos_iff_ne_zero, Option.isSome_iff_ne_none]
        tauto

/-- C5 counterexample: the claim says the identity predicate also accepts
the allowed shorter "prefix" encoding of a key. It does not: `cex5Pre`
carries a well-formed 16-hex-character key prefix and passes every other
predicate (witnessed by `cex5Full`, the same record with a full-length key,
being accepted), yet it is rejected. -/
theorem claim5_shorter_key_counterexample :
    cex5PreDoc.pubkey = some "0123456789abcdef" ∧
    ("0123456789abcdef".length = 16 ∧ "0123456789abcdef".data.all isHexChar = true) ∧
    filter cex5Pre = none ∧
    (filter cex5Full).isSome = true := by
  refine ⟨rfl, ⟨rfl, by decide⟩, ?_, ?_⟩ <;> decide

/-- C5 amended: the identity predicate of the filter accepts only an
operator identity that decodes as a full-length (64 hex character) public
key; any identity of a different length -- in particular the shorter
"prefix" encoding -- is rejected. -/
theorem claim5_amended_full_length_only (relay : Relay)
    (n11 : RelayInformationDocument) (pkp : String)
    (h1 : relay.nip11 = some n11) (h2 : n11.pubkey = some pkp)
    (h3 : pkp.length ≠ 64) : filter relay = none := by
  have hdec : tryFromHexString pkp = none := by
    simp [tryFromHexString, h3]
  simp [filter, h1, h2, hdec]

/-- C5 amended, witness: the key-prefix record of the counterexample is
rejected via the amended statement. -/
theorem claim5_amended_witness : filter cex5Pre = none :=
  claim5_amended_full_length_only cex5Pre cex5PreDoc "0123456789abcdef" rfl rfl
    (by decide)

/-- C1: on any record whose counters do not overflow the `u64` addition and
whose timestamps stay inside the signed 64-bit range, the Scoring record of
the scorer satisfies the specified field equations: attempts is the counter
sum, successes is the success counter, rate is successes over attempts, age
is now minus the last-connected time (absent treated as 0), and the score is
`rate ^ 1.414 * log2(attempts) ^ 2 / (1 + age / 86400)`. -/
theorem claim1_scoring_record (relay : Relay) (now : ℤ)
    (hov : relay.success_count + relay.failure_count < 2 ^ 64)
    (hlc : relay.last_connected_at.getD 0 < 2 ^ 63)
    (hr1 : -(2 ^ 63) ≤ now - (relay.last_connected_at.getD 0 : ℤ))
    (hr2 : now - (relay.last_connected_at.getD 0 : ℤ) < 2 ^ 63) :
    (rank now relay).attempts = relay.success_count + relay.failure_count ∧
    (rank now relay).success = relay.success_count ∧
    (rank now relay).rate
      = (relay.success_count : ℝ) / ((rank now relay).attempts : ℝ) ∧
    (rank now relay).ago = now - (relay.last_connected_at.getD 0 : ℤ) ∧
    (rank now relay).score
      = (rank now relay).rate ^ (1.414 : ℝ)
        * Real.logb 2 ((rank now relay).attempts : ℝ) ^ 2
        / (1 + ((rank now relay).ago : ℝ) / 86400) := by
  have hmatch : (match relay.last_connected_at with
      | none => (0 : Nat)
      | some time => time) = relay.last_connected_at.getD 0 := by
    cases relay.last_connected_at <;> rfl
  have hago : i64Sub now (u64AsI64 (relay.last_connected_at.getD 0))
      = now - (relay.last_connected_at.getD 0 : ℤ) := by
    have hu : u64AsI64 (relay.last_connected_at.getD 0)
        = (relay.last_connected_at.getD 0 : ℤ) := by
      apply bmod_two_pow_eq_self
      · omega
      · exact_mod_cast hlc
    rw [i64Sub, hu]
    exact bmod_two_pow_eq_self hr1 hr2
  simp only [rank, hmatch, hago]
  refine ⟨Nat.mod_eq_of_lt hov, trivial, trivial, trivial, ?_⟩
  rw [pow_two, ← mul_assoc]

/-- C6: a candidate with exactly one attempt (one success, no failures)
scores exactly 0, whatever the current time and hence whatever its age. -/
theorem claim6_single_attempt_zero (relay : Relay) (now : ℤ)
    (hs : relay.success_count = 1) (hf : relay.failure_count = 0) :
    (rank now relay).score = 0 := by
  simp [rank, hs, hf, Real.logb_one]

/-- C7 counterexample: the claim says strictly larger age always gives a
strictly smaller score at equal rate and attempts. At attempts = 1 it does
not: `cex7A` is a full day older than `cex7B` at the same rate and attempts,
yet both score exactly 0. -/
theorem claim7_age_counterexample :
    (rank 86400 cex7A).rate = (rank 86400 cex7B).rate ∧
    (rank 86400 cex7A).attempts = (rank 86400 cex7B).attempts ∧
    (rank 86400 cex7B).ago < (rank 86400 cex7A).ago ∧
    ¬((rank 86400 cex7A).score < (rank 86400 cex7B).score) := by
  have hA : (rank 86400 cex7A).score = 0 := by
    simp [rank, cex7A, baseRelay, Real.logb_one]
  have hB : (rank 86400 cex7B).score = 0 := by
    simp [rank, cex7B, baseRelay, Real.logb_one]
  refine ⟨rfl, rfl, by decide, ?_⟩
  rw [hA, hB]
  exact lt_irrefl 0

/-- The score formula is strictly antitone in the age once the numerator is
positive and both age-penalty divisors are positive. -/
theorem score_formula_anti (R L : ℝ) (hR : 0 < R) (hL : 0 < L) (a1 a2 : ℤ)
    (h2 : (-86400 : ℤ) < a2) (h12 : a2 < a1) :
    R ^ (1.414 : ℝ) * L * L / (1 + (a1 : ℝ) / 86400)
      < R ^ (1.414 : ℝ) * L * L / (1 + (a2 : ℝ) / 86400) := by
  have hC : 0 < R ^ (1.414 : ℝ) * L * L :=
    mul_pos (mul_pos (Real.rpow_pos_of_pos hR _) hL) hL
  have hc2 : (-86400 : ℝ) < (a2 : ℝ) := by exact_mod_cast h2
  have hc12 : (a2 : ℝ) < (a1 : ℝ) := by exact_mod_cast h12
  have hd2 : (0 : ℝ) < 1 + (a2 : ℝ) / 86400 := by linarith
  have hdd : 1 + (a2 : ℝ) / 86400 < 1 + (a1 : ℝ) / 86400 := by linarith
  exact div_lt_div_of_pos_left hC hd2 hdd

/-- C7 amended: holding the success and failure counters fixed (hence rate
and attempts fixed), with at least two attempts (so the log factor is
positive), at least one success, no counter overflow, and both ages above
the -86400 pole of the age-penalty divisor, the record with the strictly
larger age receives a strictly smaller score. At attempts = 1 the claim
fails (both scores are 0, see the counterexample), which forces the
attempts-at-least-2 restriction; ages at or below -86400 make the divisor
zero or negative, outside the formula's intended range. -/
theorem claim7_amended_age_monotone (r1 r2 : Relay) (now : ℤ)
    (hs : r1.success_count = r2.success_count)
    (hf : r1.failure_count = r2.failure_count)
    (hpos : 0 < r1.success_count)
    (hatt : 2 ≤ r1.success_count + r1.failure_count)
    (hov : r1.success_count + r1.failure_count < 2 ^ 64)
    (hd : (-86400 : ℤ) < (rank now r2).ago)
    (hlt : (rank now r2).ago < (rank now r1).ago) :
    (rank now r1).score < (rank now r2).score := by
  have hmod : (r1.success_count + r1.failure_count) % 2 ^ 64
      = r1.success_count + r1.failure_count := Nat.mod_eq_of_lt hov
  simp only [rank] at hd hlt ⊢
  rw [← hs, ← hf, hmod]
  have hn : 0 < r1.success_count + r1.failure_count := by omega
  have hR : 0 < (r1.success_count : ℝ)
      / ((r1.success_count + r1.failure_count : ℕ) : ℝ) := by
    apply div_pos
    · exact_mod_cast hpos
    · exact_mod_cast hn
  have hL : 0 < Real.logb 2 ((r1.success_count + r1.failure_count : ℕ) : ℝ) := by
    apply Real.logb_pos (by norm_num)
    have h1n : 1 < r1.success_count + r1.failure_count := by omega
    exact_mod_cast h1n
  exact score_formula_anti _ _ hR hL _ _ hd hlt

/-- C10: the scorer computes attempts as the wrapping 64-bit sum of the two
counters: it equals the mathematical sum exactly when that sum is below
`2 ^ 64`, and for counter values whose true sum reaches `2 ^ 64` the stored
attempts value wraps (comes out `2 ^ 64` short of the true sum). -/
theorem claim10_attempts_wrapping (relay : Relay) (now : ℤ)
    (hb1 : relay.success_count < 2 ^ 64) (hb2 : relay.failure_count < 2 ^ 64) :
    (rank now relay).attempts
      = (relay.success_count + relay.failure_count) % 2 ^ 64 ∧
    (relay.success_count + relay.failure_count < 2 ^ 64 →
      (rank now relay).attempts = relay.success_count + relay.failure_count) ∧
    (2 ^ 64 ≤ relay.success_count + relay.failure_count →
      (rank now relay).attempts
          = relay.success_count + relay.failure_count - 2 ^ 64 ∧
        (rank now relay).attempts ≠ relay.success_count + relay.failure_count) := by
  have hproj : (rank now relay).attempts
      = (relay.success_count + relay.failure_count) % 2 ^ 64 := rfl
  refine ⟨hproj, fun h => ?_, fun h => ⟨?_, ?_⟩⟩ <;> rw [hproj] <;> omega

/-- The descending-score relation used by the sort is transitive. -/
theorem scoreLE_trans (a b c : Entry) (hab : scoreLE a b) (hbc : scoreLE b c) :
    scoreLE a c := by
  simp only [scoreLE, decide_eq_true_eq] at hab hbc ⊢
  exact le_trans hbc hab

/-- The descending-score relation used by the sort is total. -/
theorem scoreLE_total (a b : Entry) : scoreLE a b || scoreLE b a := by
  simp only [scoreLE]
  rcases le_total b.2.1.score a.2.1.score with h | h <;> simp [h]

/-- C3: whenever the run succeeds, the emitted ranking is sorted by score
non-increasing, and its length is the minimum of 20 and the number of
eligible candidates; in particular when fewer than 20 survive the filter,
all of them are emitted. -/
theorem claim3_sorted_truncated (parse : String → Option Relay) (now : ℤ)
    (lines : List String) (l out : List Entry)
    (h1 : processLines parse now lines = Except.ok l)
    (h2 : runMain parse now lines = Except.ok out) :
    List.Pairwise (fun a b : Entry => b.2.1.score ≤ a.2.1.score) out ∧
      out.length = min 20 l.length := by
  have hout : out = (l.mergeSort scoreLE).take 20 := by
    rw [runMain, h1] at h2
    exact (Except.ok.injEq _ _).mp h2.symm
  subst hout
  constructor
  · have hs := List.sorted_mergeSort scoreLE_trans scoreLE_total l
    have hs' : List.Pairwise (fun a b : Entry => b.2.1.score ≤ a.2.1.score)
        (l.mergeSort scoreLE) := by
      refine hs.imp ?_
      intro a b h
      simpa [scoreLE] using h
    exact hs'.sublist (List.take_sublist _ _)
  · simp

/-- C3 witness: the empty run succeeds, and the emitted ranking of zero
eligible candidates is sorted with length `min 20 0`. -/
theorem claim3_sorted_truncated_witness :
    List.Pairwise (fun a b : Entry => b.2.1.score ≤ a.2.1.score)
        (([] : List Entry).mergeSort scoreLE |>.take 20) ∧
      (([] : List Entry).mergeSort scoreLE |>.take 20).length
        = min 20 ([] : List Entry).length :=
  claim3_sorted_truncated pfail 0 [] [] (([] : List Entry).mergeSort scoreLE |>.take 20)
    rfl (by simp [runMain, processLines])

/-- C4: an input stream containing any line the decoder cannot parse makes
the whole run abort with an error; no ranked output is produced. -/
theorem claim4_parse_error_aborts (parse : String → Option Relay) (now : ℤ)
    (lines : List String) (h : ∃ line ∈ lines, parse line = none) :
    ∃ e, runMain parse now lines = Except.error e := by
  suffices hp : ∃ e, processLines parse now lines = Except.error e by
    obtain ⟨e, he⟩ := hp
    exact ⟨e, by rw [runMain, he]⟩
  obtain ⟨bad, hmem, hbad⟩ := h
  induction lines with
  | nil => simp at hmem
  | cons x xs ih =>
    cases hp : parse x with
    | none => exact ⟨x, by simp [processLines, hp]⟩
    | some relay =>
      have hxs : bad ∈ xs := by
        rcases List.mem_cons.mp hmem with hx | hx
        · subst hx
          exact absurd hp (by simp [hbad])
        · exact hx
      obtain ⟨e, he⟩ := ih hxs
      cases hf : filter relay with
      | none => exact ⟨e, by simp [processLines, hp, hf, he]⟩
      | some pk => exact ⟨e, by simp [processLines, hp, hf, he]⟩

/-- C4 witness: a one-line stream whose only line fails to decode makes the
run abort. -/
theorem claim4_parse_error_aborts_witness :
    ∃ e, runMain pfail 0 ["bad line"] = Except.error e :=
  claim4_parse_error_aborts pfail 0 ["bad line"] ⟨"bad line", by simp, rfl⟩

/-- C9: the sort of the ranking stage is stable: two eligible candidates
with exactly equal scores appear in the sorted output in their input
arrival order, so the emitted ranking is a function of the input stream and
the sampled time alone. -/
theorem claim9_stable_ties (l : List Entry) (a b : Entry)
    (hab : [a, b].Sublist l) (heq : a.2.1.score = b.2.1.score) :
    [a, b].Sublist (l.mergeSort scoreLE) := by
  apply List.pair_sublist_mergeSort scoreLE_trans scoreLE_total _ hab
  simp [scoreLE, heq]

/-- C9 witness: two concrete equal-scored entries keep their arrival order
through the sort. -/
theorem claim9_stable_ties_witness :
    [witEntryA, witEntryB].Sublist
      (([witEntryA, witEntryB] : List Entry).mergeSort scoreLE) :=
  claim9_stable_ties [witEntryA, witEntryB] witEntryA witEntryB
    (List.Sublist.refl _) rfl

/-- The score comparator has no answer exactly when one operand is
not-a-number. -/
theorem cmpScore_eq_none_iff (a b : FVal) :
    cmpScore a b = none ↔ a = FVal.nan ∨ b = FVal.nan := by
  cases a <;> cases b <;> simp [cmpScore, optCmpF]

/-- Inserting a comparable value into a list of comparable values never
invokes the comparator on a non-comparable pair. -/
theorem insertByE_isSome_of_no_nan {x : FVal} (hx : x ≠ FVal.nan) :
    ∀ {s : List FVal}, (∀ y ∈ s, y ≠ FVal.nan) →
      ∃ r, insertByE x s = some r ∧ ∀ y ∈ r, y ≠ FVal.nan := by
  intro s
  induction s with
  | nil =>
    intro _
    exact ⟨[x], rfl, by simpa using hx⟩
  | cons y ys ih =>
    intro hs
    have hy : y ≠ FVal.nan := hs y (List.mem_cons_self y ys)
    have hcm : cmpScore x y ≠ none := by
      simp only [ne_eq, cmpScore_eq_none_iff]
      tauto
    cases hc : cmpScore x y with
    | none => exact absurd hc hcm
    | some o =>
      cases o with
      | lt =>
        refine ⟨x :: y :: ys, by simp [insertByE, hc], ?_⟩
        intro z hz
        rcases List.mem_cons.mp hz with h | h
        · exact h ▸ hx
        · exact hs z h
      | eq =>
        refine ⟨x :: y :: ys, by simp [insertByE, hc], ?_⟩
        intro z hz
        rcases List.mem_cons.mp hz with h | h
        · exact h ▸ hx
        · exact hs z h
      | gt =>
        obtain ⟨r, hr, hrn⟩ := ih (fun z hz => hs z (List.mem_cons_of_mem _ hz))
        refine ⟨y :: r, by simp [insertByE, hc, hr], ?_⟩
        intro z hz
        rcases List.mem_cons.mp hz with h | h
        · exact h ▸ hy
        · exact hrn z h

/-- A successful insertion step grows the list by one element. -/
theorem insertByE_length {x : FVal} :
    ∀ {s r : List FVal}, insertByE x s = some r → r.length = s.length + 1 := by
  intro s
  induction s with
  | nil =>
    intro r h
    simp only [insertByE, Option.some.injEq] at h
    simp [← h]
  | cons y ys ih =>
    intro r h
    cases hc : cmpScore x y with
    | none => simp [insertByE, hc] at h
    | some o =>
      cases o with
      | lt =>
        simp only [insertByE, hc, Option.some.injEq] at h
        simp [← h]
      | eq =>
        simp only [insertByE, hc, Option.some.injEq] at h
        simp [← h]
      | gt =>
        cases hr : insertByE x ys with
        | none => simp [insertByE, hc, hr] at h
        | some r2 =>
          simp only [insertByE, hc, hr, Option.some.injEq] at h
          have h2 := ih hr
          simp only [← h, List.length_cons]
          omega

/-- A successful sort preserves the length. -/
theorem sortByE_length :
    ∀ {l s : List FVal}, sortByE l = some s → s.length = l.length := by
  intro l
  induction l with
  | nil =>
    intro s h
    simp only [sortByE, Option.some.injEq] at h
    simp [← h]
  | cons x xs ih =>
    intro s h
    cases hs : sortByE xs with
    | none => simp [sortByE, hs] at h
    | some t =>
      simp only [sortByE, hs] at h
      have h1 := insertByE_length h
      have h2 := ih hs
      simp only [List.length_cons]
      omega

/-- Sorting a list of comparable scores succeeds. -/
theorem sortByE_isSome_of_no_nan :
    ∀ {l : List FVal}, (∀ y ∈ l, y ≠ FVal.nan) →
      ∃ s, sortByE l = some s ∧ ∀ y ∈ s, y ≠ FVal.nan := by
  intro l
  induction l with
  | nil =>
    intro _
    exact ⟨[], rfl, by simp⟩
  | cons x xs ih =>
    intro hl
    obtain ⟨t, ht, htn⟩ := ih (fun z hz => hl z (List.mem_cons_of_mem _ hz))
    obtain ⟨r, hr, hrn⟩ :=
      insertByE_isSome_of_no_nan (hl x (List.mem_cons_self x xs)) htn
    exact ⟨r, by simp [sortByE, ht, hr], hrn⟩

/-- Sorting a list of at least two scores containing a not-a-number score
aborts: the not-a-number value is necessarily compared against some other
element. -/
theorem sortByE_eq_none_of_nan :
    ∀ {l : List FVal}, FVal.nan ∈ l → 2 ≤ l.length → sortByE l = none := by
  intro l
  induction l with
  | nil =>
    intro h _
    simp at h
  | cons x xs ih =>
    intro hmem hlen
    by_cases hnx : FVal.nan ∈ xs
    · rcases Nat.lt_or_ge xs.length 2 with h2 | h2
      · rcases xs with _ | ⟨y, ys⟩
        · simp at hnx
        · rcases ys with _ | ⟨z, zs⟩
          · have hy : FVal.nan = y := by simpa using hnx
            subst hy
            cases x <;> simp [sortByE, insertByE, cmpScore, optCmpF]
          · simp only [List.length_cons] at h2
            omega
      · have hx2 := ih hnx h2
        simp [sortByE, hx2]
    · have hx : x = FVal.nan := by
        rcases List.mem_cons.mp hmem with h | h
        · exact h.symm
        · exact absurd h hnx
      subst hx
      have hoxs : ∀ y ∈ xs, y ≠ FVal.nan := fun y hy hc => hnx (hc ▸ hy)
      obtain ⟨t, ht, htn⟩ := sortByE_isSome_of_no_nan hoxs
      have hlt : t.length = xs.length := sortByE_length ht
      rcases t with _ | ⟨z, zs⟩
      · simp only [List.length_cons] at hlen
        simp only [List.length_nil] at hlt
        omega
      · cases z <;> simp [sortByE, ht, insertByE, cmpScore, optCmpF]

/-- C8: the ranking step aborts exactly when the list of scores holds two
scores, at distinct positions, that the comparator cannot order against
each other (one of them not-a-number); a non-comparable pair is never
silently dropped or ordered arbitrarily, and a run whose scores are
pairwise comparable never aborts. -/
theorem claim8_sort_fails_iff_noncomparable (l : List FVal) :
    sortByE l = none ↔
      ∃ i j : Fin l.length, i ≠ j ∧ cmpScore (l.get i) (l.get j) = none := by
  constructor
  · intro h
    by_cases hn : FVal.nan ∈ l
    · have hlen : 2 ≤ l.length := by
        rcases l with _ | ⟨x, xs⟩
        · simp [sortByE] at h
        · rcases xs with _ | ⟨y, ys⟩
          · simp [sortByE, insertByE] at h
          · simp only [List.length_cons]
            omega
      obtain ⟨i, hi⟩ := List.mem_iff_get.mp hn
      have h0 : 0 < l.length := by omega
      have h1 : 1 < l.length := by omega
      by_cases hz : (i : ℕ) = 0
      · refine ⟨i, ⟨1, h1⟩, ?_, ?_⟩
        · intro hij
          have : (i : ℕ) = 1 := by rw [hij]
          omega
        · rw [hi]
          cases l.get ⟨1, h1⟩ <;> simp [cmpScore, optCmpF]
      · refine ⟨i, ⟨0, h0⟩, ?_, ?_⟩
        · intro hij
          have : (i : ℕ) = 0 := by rw [hij]
          omega
        · rw [hi]
          cases l.get ⟨0, h0⟩ <;> simp [cmpScore, optCmpF]
    · exfalso
      obtain ⟨s, hs, _⟩ := sortByE_isSome_of_no_nan (fun y hy hc => hn (hc ▸ hy))
      rw [hs] at h
      simp at h
  · rintro ⟨i, j, hij, hc⟩
    have hnan : FVal.nan ∈ l := by
      rcases (cmpScore_eq_none_iff _ _).mp hc with h | h
      · rw [← h]
        exact List.get_mem l i.1 i.2
      · rw [← h]
        exact List.get_mem l j.1 j.2
    have hlen : 2 ≤ l.length := by
      by_contra hcon
      have hi := i.isLt
      have hj := j.isLt
      have hv : (i : ℕ) = (j : ℕ) := by omega
      exact hij (Fin.ext hv)
    exact sortByE_eq_none_of_nan hnan hlen

/-- C1 witness: the field equations instantiated on a concrete record and
clock. -/
theorem claim1_scoring_record_witness :
    (rank 1000 baseRelay).attempts
        = baseRelay.success_count + baseRelay.failure_count ∧
    (rank 1000 baseRelay).success = baseRelay.success_count ∧
    (rank 1000 baseRelay).rate
      = (baseRelay.success_count : ℝ) / ((rank 1000 baseRelay).attempts : ℝ) ∧
    (rank 1000 baseRelay).ago
        = 1000 - (baseRelay.last_connected_at.getD 0 : ℤ) ∧
    (rank 1000 baseRelay).score
      = (rank 1000 baseRelay).rate ^ (1.414 : ℝ)
        * Real.logb 2 ((rank 1000 baseRelay).attempts : ℝ) ^ 2
        / (1 + ((rank 1000 baseRelay).ago : ℝ) / 86400) :=
  claim1_scoring_record baseRelay 1000 (by norm_num [baseRelay])
    (by norm_num [baseRelay]) (by norm_num [baseRelay]) (by norm_num [baseRelay])

/-- C6 witness: the concrete one-attempt record scores 0 at a concrete
clock. -/
theorem claim6_single_attempt_zero_witness : (rank 12345 baseRelay).score = 0 :=
  claim6_single_attempt_zero baseRelay 12345 rfl rfl

/-- C7 amended, witness: of two concrete two-attempt records at the same
rate, the one connected an hour earlier scores strictly less. -/
theorem claim7_amended_age_monotone_witness :
    (rank 86400 wit7A).score < (rank 86400 wit7B).score :=
  claim7_amended_age_monotone wit7A wit7B 86400 rfl rfl (by decide) (by decide)
    (by norm_num [wit7A, baseRelay]) (by decide) (by decide)

/-- C10 witness: two half-range counters make the wrapping sum come out 0,
`2 ^ 64` short of the true sum. -/
theorem claim10_attempts_wrapping_witness :
    (rank 0 wit10).attempts
        = (wit10.success_count + wit10.failure_count) % 2 ^ 64 ∧
    (wit10.success_count + wit10.failure_count < 2 ^ 64 →
      (rank 0 wit10).attempts = wit10.success_count + wit10.failure_count) ∧
    (2 ^ 64 ≤ wit10.success_count + wit10.failure_count →
      (rank 0 wit10).attempts
          = wit10.success_count + wit10.failure_count - 2 ^ 64 ∧
        (rank 0 wit10).attempts ≠ wit10.success_count + wit10.failure_count) :=
  claim10_attempts_wrapping wit10 0 (by norm_num [wit10, baseRelay])
    (by norm_num [wit10, baseRelay])

end RelayRank
